import Mathlib

/-!
# Verification of the TOASTY structured-mesh FEM thermal core

Shallow embedding, in Lean 4, of the numerically relevant parts of the
TOASTY repository (`toasty/FEM_comp.py`, `toasty/FEM.py`, `toasty/utils.py`):
the bilinear quadrilateral element kernel, the sparse COO assembly of the
global conductance matrix with Dirichlet row handling, the global load
vector, the density-residual Jacobian structure, the density-processing
pipeline stages (linear density filter, smoothstep) and the
density-weighted average-temperature reduction.

Conventions of the embedding:
* Floating point arrays are embedded as functions into `ℚ` (every IEEE
  float is a rational number; all branching the source performs is on
  input data, which keeps the corresponding Lean definitions decidable)
  or into `ℝ` where genuinely irrational intermediate values occur (the
  element kernel evaluates shape-function derivatives at the Gauss points
  `±1/√3`, so stiffness values live in `ℝ`).
* `T_set` entries are "finite or not-finite" sentinels in the source
  (`np.isfinite`); they are embedded as `Option ℚ` (`none` = not finite =
  temperature not prescribed).
* A `scipy.sparse.coo_matrix((vals, (rows, cols)))` materialisation sums
  duplicate `(row, col)` pairs; a sparse matrix is therefore embedded as
  the function `fun r c => ∑ (triples with row r, col c), value`.
* `np.linalg.solve` on a 2×2 system is embedded by Cramer's rule (the
  unique solution whenever the determinant is nonzero; Lean's total
  division by zero is never hit on the meshes considered, and no theorem
  below depends on the value in the degenerate case).
-/

namespace Toasty

/- The element kernel and everything built from it takes values in `ℝ`
(the Gauss points are `±1/√3`), so these definitions carry no executable
code; all of the purely rational components further below are computable. -/
noncomputable section RealKernel

/-- Configuration of the `FEM` component (`FEM_comp.py`, `initialize`/`setup`):
mesh dimensions, coordinate limits, prescribed nodal temperatures `T_set`
(`none` embeds a non-finite = unset entry), per-element heat generation `q`,
and the material conductivity. -/
structure FEMConfig where
  nx : ℕ
  ny : ℕ
  xlo : ℚ
  xhi : ℚ
  ylo : ℚ
  yhi : ℚ
  Tset : ℕ → ℕ → Option ℚ
  q : ℕ → ℕ → ℚ
  conductivity : ℚ

namespace FEMConfig

/-- `x` coordinate of mesh node `(i, j)`: `gen_mesh` in `utils.py` is
`np.meshgrid(np.linspace(xlim, nx), np.linspace(ylim, ny), indexing="ij")`,
so the `x` coordinate depends only on `i`, with uniform spacing
`(xhi - xlo) / (nx - 1)`. -/
def meshX (cfg : FEMConfig) (i : ℕ) : ℝ :=
  (cfg.xlo : ℝ) + (i : ℝ) * (((cfg.xhi : ℝ) - (cfg.xlo : ℝ)) / ((cfg.nx : ℝ) - 1))

/-- `y` coordinate of mesh node `(i, j)`; depends only on `j`. -/
def meshY (cfg : FEMConfig) (j : ℕ) : ℝ :=
  (cfg.ylo : ℝ) + (j : ℝ) * (((cfg.yhi : ℝ) - (cfg.ylo : ℝ)) / ((cfg.ny : ℝ) - 1))

end FEMConfig

/-! ## Element kernel (`FEM._N`, `FEM._dN_dxi`, `FEM._local_stiffness`,
`FEM._local_force` in `FEM_comp.py`) -/

/-- Shape-function row `[N1, N2, N3, N4]` at standard coordinates `(ξ, η)`. -/
def Nshape (xi eta : ℝ) : Fin 4 → ℝ :=
  ![(xi - 1) * (eta - 1) / 4, -((xi + 1) * (eta - 1)) / 4,
    (xi + 1) * (eta + 1) / 4, -((xi - 1) * (eta + 1)) / 4]

/-- Shape-function derivative matrix `[dN/dξ; dN/dη]` at `(ξ, η)`. -/
def dN (xi eta : ℝ) : Fin 2 → Fin 4 → ℝ :=
  ![![(eta - 1) / 4, (-eta + 1) / 4, (eta + 1) / 4, (-eta - 1) / 4],
    ![(xi - 1) / 4, (-xi - 1) / 4, (xi + 1) / 4, (-xi + 1) / 4]]

/-- The four Gauss quadrature points `(±1/√3, ±1/√3)`, in the order the
source lists them. -/
def quadPts : Fin 4 → ℝ × ℝ :=
  ![(-(1 / Real.sqrt 3), -(1 / Real.sqrt 3)),
    (-(1 / Real.sqrt 3), 1 / Real.sqrt 3),
    (1 / Real.sqrt 3, -(1 / Real.sqrt 3)),
    (1 / Real.sqrt 3, 1 / Real.sqrt 3)]

/-- Nodal `(x, y)` coordinates of the four corners of element `(i, j)`,
in the shape-function (counterclockwise) order used by
`_local_stiffness`: lower-left, lower-right, upper-right, upper-left. -/
def nodalCoord (cfg : FEMConfig) (i j : ℕ) : Fin 4 → Fin 2 → ℝ :=
  ![![cfg.meshX i, cfg.meshY j],
    ![cfg.meshX (i + 1), cfg.meshY j],
    ![cfg.meshX (i + 1), cfg.meshY (j + 1)],
    ![cfg.meshX i, cfg.meshY (j + 1)]]

/-- Jacobian `J = dN_dξ ⬝ nodal_coord` (2×2) at one quadrature point. -/
def elemJ (cfg : FEMConfig) (i j : ℕ) (xi eta : ℝ) : Fin 2 → Fin 2 → ℝ :=
  fun m n => ∑ p : Fin 4, dN xi eta m p * nodalCoord cfg i j p n

/-- Determinant of a 2×2 matrix given as a function. -/
def det2 (M : Fin 2 → Fin 2 → ℝ) : ℝ :=
  M 0 0 * M 1 1 - M 0 1 * M 1 0

/-- Embedding of `np.linalg.solve(J, A)` for a 2×2 `J` and a 2×4 `A` by
Cramer's rule: returns `J⁻¹ ⬝ A` whenever `det J ≠ 0`. -/
def solve2 (M : Fin 2 → Fin 2 → ℝ) (A : Fin 2 → Fin 4 → ℝ) : Fin 2 → Fin 4 → ℝ :=
  fun m n =>
    if m = 0 then (M 1 1 * A 0 n - M 0 1 * A 1 n) / det2 M
    else (M 0 0 * A 1 n - M 1 0 * A 0 n) / det2 M

/-- `B = solve(J, dN)` at one quadrature point of element `(i, j)`. -/
def elemB (cfg : FEMConfig) (i j : ℕ) (xi eta : ℝ) : Fin 2 → Fin 4 → ℝ :=
  solve2 (elemJ cfg i j xi eta) (dN xi eta)

/-- `FEM._local_stiffness`: `stiff = Σ_quadrature k · Bᵀ·B · det(J)`. -/
def localStiffness (cfg : FEMConfig) (i j : ℕ) : Fin 4 → Fin 4 → ℝ :=
  fun a b =>
    ∑ qp : Fin 4,
      (cfg.conductivity : ℝ) *
        (∑ m : Fin 2,
          elemB cfg i j (quadPts qp).1 (quadPts qp).2 m a *
            elemB cfg i j (quadPts qp).1 (quadPts qp).2 m b) *
        det2 (elemJ cfg i j (quadPts qp).1 (quadPts qp).2)

/-- `FEM._local_force`: `force = Σ_quadrature q · N · det(J)`. -/
def localForce (cfg : FEMConfig) (i j : ℕ) (qv : ℝ) : Fin 4 → ℝ :=
  fun a =>
    ∑ qp : Fin 4,
      qv * Nshape (quadPts qp).1 (quadPts qp).2 a *
        det2 (elemJ cfg i j (quadPts qp).1 (quadPts qp).2)


/-! ## Sparse COO assembly (`FEM._preprocess_global_stiffness` and
`FEM._update_global_stiffness` in `FEM_comp.py`)

`_preprocess_global_stiffness` lays the global matrix out as four
"corner streams": stream `rc` holds, for every element `e`, the four COO
triples `(row = node_glob_idx[rc][e], col = node_glob_idx[cc][e],
val = K_loc[rc][cc])`, `cc = 0..3`.  Entries whose row node has a
prescribed temperature are zeroed, except the diagonal position
(`cc = rc`), which is set to the pre-scaled value 1 / 0.5 / 0.25
according to whether the node sits at a mesh corner / edge / interior;
those diagonal positions are removed from the density maps.
`_update_global_stiffness` multiplies every remaining entry of element
`e` by `density[e]` and materialises
`sp.coo_matrix((vals, (rows, cols))).tocsr()`, which sums duplicate
`(row, col)` pairs.  `Kglob` below is exactly that sum of triples, and
`KvalEntry` is the value a single triple carries after masking and
density substitution (a masked-to-zero off-diagonal entry is still
multiplied by the density in the source; `0 * density = 0` is written
directly as `0` here). -/

/-- Flattened node index of corner `c` of element `(ei, ej)`, in the
counterclockwise order of `node_glob_idx`: lower-left, lower-right,
upper-right, upper-left (`_flattened_node_ij i j = i * ny + j`). -/
def cornerNode (cfg : FEMConfig) (ei ej : ℕ) : Fin 4 → ℕ :=
  ![ei * cfg.ny + ej, (ei + 1) * cfg.ny + ej, (ei + 1) * cfg.ny + ej + 1,
    ei * cfg.ny + ej + 1]

/-- `T_set` looked up at a flattened node index
(`T_is_set = np.isfinite(T_set).flatten()`; index `d` of the flattened
`(nx, ny)` array corresponds to entry `(d / ny, d % ny)`). -/
def TsetFlat (cfg : FEMConfig) (d : ℕ) : Option ℚ :=
  cfg.Tset (d / cfg.ny) (d % cfg.ny)

/-- Pre-scaled diagonal value stored for a Dirichlet node, from
`_preprocess_global_stiffness`: 1.0 for a mesh corner node (touched by
one element), 0.5 for an edge node (two elements), 0.25 for an interior
node (four elements), so duplicate COO summation yields exactly 1.0.
`diag_j = d % ny`, `diag_i = (d - diag_j) / ny` as in the source. -/
def prescale (cfg : FEMConfig) (d : ℕ) : ℝ :=
  let dj := d % cfg.ny
  let di := (d - dj) / cfg.ny
  if (di = 0 ∨ di = cfg.nx - 1) ∧ (dj = 0 ∨ dj = cfg.ny - 1) then 1
  else if di = 0 ∨ di = cfg.nx - 1 ∨ dj = 0 ∨ dj = cfg.ny - 1 then 1 / 2
  else 1 / 4

/-- Value of the COO triple in stream `rc`, element `(ei, ej)`, column
corner `cc`, after Dirichlet masking and density substitution.  The
density vector `x` is indexed by the flattened element index
`ei * (ny - 1) + ej` (`idx_density_map` repeats `np.arange(n_elem)`). -/
def KvalEntry (cfg : FEMConfig) (x : ℕ → ℝ) (ei ej : ℕ) (rc cc : Fin 4) : ℝ :=
  if (TsetFlat cfg (cornerNode cfg ei ej rc)).isSome then
    (if cc = rc then prescale cfg (cornerNode cfg ei ej rc) else 0)
  else x (ei * (cfg.ny - 1) + ej) * localStiffness cfg 0 0 rc cc

/-- The assembled global stiffness matrix: entry `(r, c)` is the sum of
all COO triple values with row `r` and column `c` (duplicate `(row, col)`
pairs are summed by `coo_matrix(...).tocsr()`). -/
def Kglob (cfg : FEMConfig) (x : ℕ → ℝ) (r c : ℕ) : ℝ :=
  ∑ ei ∈ Finset.range (cfg.nx - 1), ∑ ej ∈ Finset.range (cfg.ny - 1),
    ∑ rc : Fin 4, ∑ cc : Fin 4,
      if cornerNode cfg ei ej rc = r ∧ cornerNode cfg ei ej cc = c then
        KvalEntry cfg x ei ej rc cc
      else 0

/-- `FEM._update_global_force`: zero the vector, accumulate the local
load of every element with nonzero heat generation at its four corner
nodes, then overwrite every finite-`T_set` node with its prescribed
temperature (the overwrite is last, so it wins). -/
def Fglob (cfg : FEMConfig) (n : ℕ) : ℝ :=
  match TsetFlat cfg n with
  | some t => (t : ℝ)
  | none =>
      ∑ ei ∈ Finset.range (cfg.nx - 1), ∑ ej ∈ Finset.range (cfg.ny - 1),
        if cfg.q ei ej ≠ 0 then
          ∑ c : Fin 4,
            (if cornerNode cfg ei ej c = n then localForce cfg ei ej (cfg.q ei ej) c else 0)
        else 0

/-! ## Density Jacobian structure (`FEM._preprocess_pRpx`, `FEM.linearize`)

`linearize` computes `pRpx = pRpx_coeff_mat ⬝ pRpx_temp_mat`.  The
coefficient matrix holds, for each element `e` and reordered corner pair
`(rc, cc)`, the triple `(row = nodal_glob_idx[rc][e], col = 4 e + cc,
val = K_loc_reordered[rc][cc])`, with every triple whose row node has a
prescribed temperature removed.  The temperature matrix has a single
entry per row: `(row = 4 e + cc, col = e, val = T[nodal_glob_idx[cc][e]])`.
Multiplying them out, entry `(r, e)` of `pRpx` is the double sum below. -/

/-- Corner order used by `_preprocess_pRpx` (`nodal_glob_idx`): lower-left,
upper-left, lower-right, upper-right.  (`AvgTemp` in `utils.py` uses the
same `node_idx` table.) -/
def cornerNode2 (cfg : FEMConfig) (ei ej : ℕ) : Fin 4 → ℕ :=
  ![ei * cfg.ny + ej, ei * cfg.ny + ej + 1, (ei + 1) * cfg.ny + ej,
    (ei + 1) * cfg.ny + ej + 1]

/-- `idx_reorder_K = [0, 3, 1, 2]`: reorders the local stiffness from the
counterclockwise corner order to the `cornerNode2` order. -/
def reorderK : Fin 4 → Fin 4 := ![0, 3, 1, 2]

/-- The reordered local stiffness matrix `K_loc[np.ix_(idx_reorder_K, idx_reorder_K)]`. -/
def KlocReordered (cfg : FEMConfig) (a b : Fin 4) : ℝ :=
  localStiffness cfg 0 0 (reorderK a) (reorderK b)

/-- Entry `(r, element (ei, ej))` of the `∂R/∂density` matrix built by
`linearize` from the current nodal temperatures `T`. -/
def pRpxEntry (cfg : FEMConfig) (T : ℕ → ℝ) (r : ℕ) (ei ej : ℕ) : ℝ :=
  ∑ rc : Fin 4, ∑ cc : Fin 4,
    if cornerNode2 cfg ei ej rc = r ∧ ¬(TsetFlat cfg (cornerNode2 cfg ei ej rc)).isSome then
      KlocReordered cfg rc cc * T (cornerNode2 cfg ei ej cc)
    else 0

/-- Matrix–vector product truncated to the first `n` indices (the global
system has `n = nx * ny` unknowns). -/
def matVecN (n : ℕ) (K : ℕ → ℕ → ℝ) (v : ℕ → ℝ) (r : ℕ) : ℝ :=
  ∑ c ∈ Finset.range n, K r c * v c

/-! ## Reference (naive) assembly for the refinement claim

`FEM.py`'s `FEM._global_stiffness` loops over all elements and adds
`density[i, j] * K_loc` into `K_glob[np.ix_(idx_glob, idx_glob)]`, with
the same counterclockwise corner table as `cornerNode`.  It performs no
boundary handling; per the specification's description of the reference
semantics, each Dirichlet row is then overwritten with the unit row. -/

/-- Naive dense accumulation of `FEM.py`'s `_global_stiffness` (no
boundary handling), at the same mesh dimensions and conductivity. -/
def KglobNaiveRaw (cfg : FEMConfig) (x : ℕ → ℝ) (r c : ℕ) : ℝ :=
  ∑ ei ∈ Finset.range (cfg.nx - 1), ∑ ej ∈ Finset.range (cfg.ny - 1),
    x (ei * (cfg.ny - 1) + ej) *
      ∑ rc : Fin 4, ∑ cc : Fin 4,
        if cornerNode cfg ei ej rc = r ∧ cornerNode cfg ei ej cc = c then
          localStiffness cfg 0 0 rc cc
        else 0

/-- Modelled from the spec: the reference semantics "take the naive
elementwise accumulation and overwrite each Dirichlet row with the unit
row" (the spec's §4.2 description of what the fast value-substitution
assembly must reproduce; `FEM.py` itself overwrites rows only inside its
hard-coded `solve`). -/
def KglobNaive (cfg : FEMConfig) (x : ℕ → ℝ) (r c : ℕ) : ℝ :=
  if (TsetFlat cfg r).isSome then (if c = r then 1 else 0)
  else KglobNaiveRaw cfg x r c

/-! ## Memoised stiffness update (`FEM._update_global_stiffness` caching) -/

/-- The mutable state touched by `_update_global_stiffness`: the stored
density snapshot (`self.density`) and the current global stiffness
matrix (`self.K_glob`).  Density entries are embedded as exact rationals
(every IEEE float is rational), which keeps the source's
`np.any(self.density != density)` comparison decidable. -/
structure StiffState where
  density : List ℚ
  Kmat : ℕ → ℕ → ℝ

/-- `FEM._update_global_stiffness`: if the incoming density equals the
stored snapshot by value, return with no state change; otherwise store
the new density and rebuild the global stiffness matrix from it. -/
def updateGlobalStiffness (cfg : FEMConfig) (s : StiffState) (d : List ℚ) : StiffState :=
  if s.density = d then s
  else { density := d, Kmat := Kglob cfg (fun e => ((d.getD e 0 : ℚ) : ℝ)) }

/-! ## Construction (`FEM.setup`)

`FEM.setup` builds the mesh, the quadrature tables, the sparsity
preprocessing, the initial stiffness matrix (at density 1) and the load
vector.  For inputs of the declared shapes it contains no validation and
no raise site whatsoever: it never checks that at least one `T_set`
entry is finite, never checks the sign of the conductivity, and the
filter's `setup` (below) never checks the sign of the radius.  A Python
exception is embedded as `Except.error`; since no statement in the
source can raise for in-shape inputs, the embedding always returns
`Except.ok` with the constructed state. -/

/-- Embedding of `FEM.setup`: returns the assembled stiffness matrix at
the initial all-ones density together with the load vector.  There is no
validation code path in the source, hence no `Except.error` branch. -/
def FEMSetup (cfg : FEMConfig) : Except String ((ℕ → ℕ → ℝ) × (ℕ → ℝ)) :=
  Except.ok (Kglob cfg (fun _ => 1), Fglob cfg)

/-! ## Density-weighted average temperature (`AvgTemp` in `utils.py`) -/

/-- `AvgTemp.compute`: zero the output, add the temperature at each of
the element's four corner nodes (`node_idx` order = `cornerNode2`), then
multiply by `density / 4`. -/
def avgTemp (cfg : FEMConfig) (x : ℕ → ℝ) (T : ℕ → ℝ) (ei ej : ℕ) : ℝ :=
  (0 + T (cornerNode2 cfg ei ej 0) + T (cornerNode2 cfg ei ej 1) +
      T (cornerNode2 cfg ei ej 2) + T (cornerNode2 cfg ei ej 3)) *
    (x (ei * (cfg.ny - 1) + ej) / 4)

/-- `AvgTemp.compute_partials`, `jacobian["avg_temp", "density"]`
(diagonal): zero, then add `temp[idx] / 4` for each corner. -/
def avgTempPDensity (cfg : FEMConfig) (T : ℕ → ℝ) (ei ej : ℕ) : ℝ :=
  0 + T (cornerNode2 cfg ei ej 0) / 4 + T (cornerNode2 cfg ei ej 1) / 4 +
    T (cornerNode2 cfg ei ej 2) / 4 + T (cornerNode2 cfg ei ej 3) / 4

/-- `AvgTemp.compute_partials`, `jacobian["avg_temp", "temp"]`: the entry
at (element `(ei, ej)`, corner slot `c`) is `density[e] / 4`
(`np.repeat(density, 4) / 4`). -/
def avgTempPTemp (cfg : FEMConfig) (x : ℕ → ℝ) (ei ej : ℕ) (c : Fin 4) : ℝ :=
  0 + x (ei * (cfg.ny - 1) + ej) / 4

end RealKernel

/-! ## Smoothstep stage (`SmoothStep` in `utils.py`), exact rationals -/

/-- Options of the `SmoothStep` component: polynomial order `n` and the
transition band / output range. -/
structure SmoothStepOpts where
  n : ℕ
  xmin : ℚ
  xmax : ℚ
  ymin : ℚ
  ymax : ℚ

/-- `SmoothStep.compute`, elementwise: normalise to `[0, 1]`, evaluate the
rational polynomial `xs^n / (xs^n + (1-xs)^n)`, clip below/above the band
(`np.where(x_scaled < 0, 0, ·)` then `np.where(x_scaled > 1, 1, ·)`),
and map back to `[y_min, y_max]`. -/
def smoothStepCompute (o : SmoothStepOpts) (x : ℚ) : ℚ :=
  let xs := (x - o.xmin) / (o.xmax - o.xmin)
  let ys := xs ^ o.n / (xs ^ o.n + (1 - xs) ^ o.n)
  let ys1 := if xs < 0 then 0 else ys
  let ys2 := if 1 < xs then 1 else ys1
  o.ymin + (o.ymax - o.ymin) * ys2

/-- `SmoothStep.compute_partials`, elementwise: the analytic derivative of
the rational polynomial, zeroed outside the band, scaled back to the
user's range. -/
def smoothStepPartial (o : SmoothStepOpts) (x : ℚ) : ℚ :=
  let xs := (x - o.xmin) / (o.xmax - o.xmin)
  let d := (o.n : ℚ) * xs ^ (o.n - 1) * (1 - xs) ^ (o.n - 1) /
    (xs ^ o.n + (1 - xs) ^ o.n) ^ 2
  let d1 := if xs < 0 then 0 else d
  let d2 := if 1 < xs then 0 else d1
  d2 * (o.ymax - o.ymin) / (o.xmax - o.xmin)

/-! ## Linear density filter (`LinearDensityFilter` in `utils.py`), exact
rationals.  `setup` builds, row by row, the weights
`w_j = 1 - ‖centroid_j - centroid_i‖² / r²` over the index box of radius
`ceil(r / spacing)` around element `i`, keeps the strictly positive ones,
and normalises them by their sum; `compute` is the matrix–vector product
with the density. -/

/-- Configuration of the `LinearDensityFilter` component. -/
structure FilterConfig where
  nx : ℕ
  ny : ℕ
  xlo : ℚ
  xhi : ℚ
  ylo : ℚ
  yhi : ℚ
  r : ℚ

namespace FilterConfig

/-- `x_spacing = (xlim[1] - xlim[0]) / (num_x - 1)`. -/
def xSpacing (f : FilterConfig) : ℚ := (f.xhi - f.xlo) / ((f.nx : ℚ) - 1)

/-- `y_spacing = (ylim[1] - ylim[0]) / (num_y - 1)`. -/
def ySpacing (f : FilterConfig) : ℚ := (f.yhi - f.ylo) / ((f.ny : ℚ) - 1)

/-- `r_idx_x = int(np.ceil(r / x_spacing))`. -/
def rIdxX (f : FilterConfig) : ℤ := ⌈f.r / f.xSpacing⌉

/-- `r_idx_y = int(np.ceil(r / y_spacing))`. -/
def rIdxY (f : FilterConfig) : ℤ := ⌈f.r / f.ySpacing⌉

/-- `x_neighbor_list = np.arange(max(0, idx_x - r_idx_x),
min(nx - 2, idx_x + r_idx_x) + 1)` (inclusive box in `x`). -/
def neighborsX (f : FilterConfig) (ix : ℕ) : Finset ℤ :=
  Finset.Icc (max 0 ((ix : ℤ) - f.rIdxX)) (min ((f.nx : ℤ) - 2) ((ix : ℤ) + f.rIdxX))

/-- The inclusive neighbor box in `y`. -/
def neighborsY (f : FilterConfig) (iy : ℕ) : Finset ℤ :=
  Finset.Icc (max 0 ((iy : ℤ) - f.rIdxY)) (min ((f.ny : ℤ) - 2) ((iy : ℤ) + f.rIdxY))

/-- Centroid `x` coordinate of element column `ix`: `(idx_x + 0.5) * x_spacing`. -/
def centroidX (f : FilterConfig) (ix : ℤ) : ℚ := ((ix : ℚ) + 1 / 2) * f.xSpacing

/-- Centroid `y` coordinate of element row `iy`. -/
def centroidY (f : FilterConfig) (iy : ℤ) : ℚ := ((iy : ℚ) + 1 / 2) * f.ySpacing

/-- Unnormalised filter weight of neighbor element `p = (jx, jy)` on
element `(ix, iy)`: `1 - ((xj - xi)² + (yj - yi)²) / r²`. -/
def weight (f : FilterConfig) (ix iy : ℕ) (p : ℤ × ℤ) : ℚ :=
  1 - ((f.centroidX p.1 - f.centroidX ix) ^ 2 + (f.centroidY p.2 - f.centroidY iy) ^ 2) / f.r ^ 2

/-- The neighbors kept for row `(ix, iy)`: those in the index box whose
weight is strictly positive (`idx_nonzero = wj > 0.0`). -/
def kept (f : FilterConfig) (ix iy : ℕ) : Finset (ℤ × ℤ) :=
  (f.neighborsX ix ×ˢ f.neighborsY iy).filter fun p => 0 < f.weight ix iy p

end FilterConfig

/-- `LinearDensityFilter.compute` for the row of element `(ix, iy)`: the
kept weights, normalised by their sum, dotted with the density at the
flattened neighbor indices `jx * (ny - 1) + jy`. -/
def densityFiltered (f : FilterConfig) (density : ℕ → ℚ) (ix iy : ℕ) : ℚ :=
  ∑ p ∈ f.kept ix iy,
    f.weight ix iy p / (∑ p' ∈ f.kept ix iy, f.weight ix iy p') *
      density ((p.1 * ((f.ny : ℤ) - 1) + p.2).toNat)

/-- Embedding of `LinearDensityFilter.setup` + `compute`: the setup loop
contains no validation and no raise site (for in-shape inputs), so the
construction always succeeds and yields the filtering map. -/
def FilterSetup (f : FilterConfig) : Except String ((ℕ → ℚ) → ℕ → ℕ → ℚ) :=
  Except.ok fun density ix iy => densityFiltered f density ix iy

/-! ## Concrete configurations used as witnesses -/

/-- 3×3-node mesh with the single interior node's temperature prescribed
(the repository's `FourElem` test scenario, with `T_set[1, 1] = 5`). -/
def cfgInterior : FEMConfig where
  nx := 3
  ny := 3
  xlo := 0
  xhi := 1
  ylo := 0
  yhi := 1
  Tset := fun i j => if i = 1 ∧ j = 1 then some 5 else none
  q := fun _ _ => 0
  conductivity := 1000

/-- Single-element 2×2-node unit mesh with the lower-left node's
temperature prescribed to 10 and unit conductivity (the repository's
`SingleElem.test_single_elem_set_temp` scenario). -/
def cfgSingle : FEMConfig where
  nx := 2
  ny := 2
  xlo := 0
  xhi := 1
  ylo := 0
  yhi := 1
  Tset := fun i j => if i = 0 ∧ j = 0 then some 10 else none
  q := fun _ _ => 0
  conductivity := 1

/-- A configuration that §7 calls invalid twice over: no Dirichlet node
at all (`T_set` nowhere finite) and a non-positive conductivity. -/
def cfgInvalid : FEMConfig where
  nx := 3
  ny := 3
  xlo := 0
  xhi := 1
  ylo := 0
  yhi := 1
  Tset := fun _ _ => none
  q := fun _ _ => 0
  conductivity := -1

/-- A filter configuration with radius `≤ 0` (invalid per §7). -/
def fcfgInvalid : FilterConfig where
  nx := 3
  ny := 3
  xlo := 0
  xhi := 1
  ylo := 0
  yhi := 1
  r := -1

/-- Row sums of the shape-function derivative matrix vanish: the four
bilinear shape functions sum to the constant 1. -/
theorem dN_row_sum (xi eta : ℝ) (m : Fin 2) : ∑ p : Fin 4, dN xi eta m p = 0 := by
  fin_cases m <;> simp [dN, Fin.sum_univ_four] <;> ring

/-- A linear combination of two zero-sum families, divided entrywise by a
common (possibly zero) denominator, still sums to zero. -/
theorem comb_div_sum_zero (a c D : ℝ) (b d : Fin 4 → ℝ)
    (hb : ∑ k : Fin 4, b k = 0) (hd : ∑ k : Fin 4, d k = 0) :
    ∑ k : Fin 4, (a * b k - c * d k) / D = 0 := by
  rw [← Finset.sum_div]
  have h : ∑ k : Fin 4, (a * b k - c * d k)
      = a * (∑ k : Fin 4, b k) - c * (∑ k : Fin 4, d k) := by
    rw [Finset.mul_sum, Finset.mul_sum, ← Finset.sum_sub_distrib]
  rw [h, hb, hd]
  simp

/-- Row sums of `B` vanish, because `B`'s rows are linear combinations of
`dN`'s rows (divided by the determinant) and `dN`'s rows sum to zero. -/
theorem elemB_row_sum (cfg : FEMConfig) (i j : ℕ) (xi eta : ℝ) (m : Fin 2) :
    ∑ p : Fin 4, elemB cfg i j xi eta m p = 0 := by
  have h0 := dN_row_sum xi eta 0
  have h1 := dN_row_sum xi eta 1
  revert m
  rw [Fin.forall_fin_two]
  constructor
  · have h : ∀ p : Fin 4, elemB cfg i j xi eta 0 p =
        (elemJ cfg i j xi eta 1 1 * dN xi eta 0 p -
          elemJ cfg i j xi eta 0 1 * dN xi eta 1 p) / det2 (elemJ cfg i j xi eta) :=
      fun p => by simp [elemB, solve2]
    rw [Finset.sum_congr rfl fun p _ => h p]
    exact comb_div_sum_zero _ _ _ _ _ h0 h1
  · have h : ∀ p : Fin 4, elemB cfg i j xi eta 1 p =
        (elemJ cfg i j xi eta 0 0 * dN xi eta 1 p -
          elemJ cfg i j xi eta 1 0 * dN xi eta 0 p) / det2 (elemJ cfg i j xi eta) :=
      fun p => by simp [elemB, solve2]
    rw [Finset.sum_congr rfl fun p _ => h p]
    exact comb_div_sum_zero _ _ _ _ _ h1 h0

/-- Row sums of the local stiffness matrix vanish. -/
theorem localStiffness_row_sum (cfg : FEMConfig) (i j : ℕ) (a : Fin 4) :
    ∑ b : Fin 4, localStiffness cfg i j a b = 0 := by
  unfold localStiffness
  rw [Finset.sum_comm]
  refine Finset.sum_eq_zero fun qp _ => ?_
  have : ∑ b : Fin 4, (∑ m : Fin 2,
      elemB cfg i j (quadPts qp).1 (quadPts qp).2 m a *
        elemB cfg i j (quadPts qp).1 (quadPts qp).2 m b) = 0 := by
    rw [Finset.sum_comm]
    refine Finset.sum_eq_zero fun m _ => ?_
    rw [← Finset.mul_sum, elemB_row_sum, mul_zero]
  calc
    ∑ b : Fin 4, (cfg.conductivity : ℝ) * (∑ m : Fin 2,
        elemB cfg i j (quadPts qp).1 (quadPts qp).2 m a *
          elemB cfg i j (quadPts qp).1 (quadPts qp).2 m b) *
        det2 (elemJ cfg i j (quadPts qp).1 (quadPts qp).2)
      = (cfg.conductivity : ℝ) * (∑ b : Fin 4, ∑ m : Fin 2,
          elemB cfg i j (quadPts qp).1 (quadPts qp).2 m a *
            elemB cfg i j (quadPts qp).1 (quadPts qp).2 m b) *
          det2 (elemJ cfg i j (quadPts qp).1 (quadPts qp).2) := by
        rw [Finset.mul_sum, Finset.sum_mul]
    _ = 0 := by rw [this, mul_zero, zero_mul]

/-- Column sums of the local stiffness matrix also vanish (`BᵀB` is
symmetric in its two index arguments). -/
theorem localStiffness_col_sum (cfg : FEMConfig) (i j : ℕ) (b : Fin 4) :
    ∑ a : Fin 4, localStiffness cfg i j a b = 0 := by
  have h : ∀ a, localStiffness cfg i j a b = localStiffness cfg i j b a := by
    intro a
    unfold localStiffness
    refine Finset.sum_congr rfl fun qp _ => ?_
    congr 2
    exact Finset.sum_congr rfl fun m _ => mul_comm _ _
  rw [Finset.sum_congr rfl fun a _ => h a]
  exact localStiffness_row_sum cfg i j b


/-! ## Flattened-index arithmetic and sum-collapse helpers -/

theorem cornerNode_c0 (cfg : FEMConfig) (ei ej : ℕ) :
    cornerNode cfg ei ej 0 = ei * cfg.ny + ej := rfl

theorem cornerNode_c1 (cfg : FEMConfig) (ei ej : ℕ) :
    cornerNode cfg ei ej 1 = (ei + 1) * cfg.ny + ej := rfl

theorem cornerNode_c2 (cfg : FEMConfig) (ei ej : ℕ) :
    cornerNode cfg ei ej 2 = (ei + 1) * cfg.ny + ej + 1 := rfl

theorem cornerNode_c3 (cfg : FEMConfig) (ei ej : ℕ) :
    cornerNode cfg ei ej 3 = ei * cfg.ny + ej + 1 := rfl

theorem flat_mod {ny : ℕ} (i j : ℕ) (hj : j < ny) : (i * ny + j) % ny = j := by
  rw [Nat.add_mod, Nat.mul_mod_left]
  simp [Nat.mod_eq_of_lt hj]

theorem flat_inj {ny i j i' j' : ℕ} (hj : j < ny) (hj' : j' < ny)
    (h : i * ny + j = i' * ny + j') : i = i' ∧ j = j' := by
  have h1 : j = j' := by rw [← flat_mod i j hj, h, flat_mod i' j' hj']
  subst h1
  have hpos : 0 < ny := lt_of_le_of_lt (Nat.zero_le j) hj
  have h2 : i * ny = i' * ny := by omega
  exact ⟨Nat.eq_of_mul_eq_mul_right hpos h2, rfl⟩

theorem flat_lt {nx ny i j : ℕ} (hi : i < nx) (hj : j < ny) :
    i * ny + j < nx * ny :=
  calc i * ny + j < i * ny + ny := by omega
  _ = (i + 1) * ny := by ring
  _ ≤ nx * ny := Nat.mul_le_mul_right ny (by omega)

theorem cornerNode_lt (cfg : FEMConfig) (ei ej : ℕ) (hei : ei < cfg.nx - 1)
    (hej : ej < cfg.ny - 1) (h2x : 2 ≤ cfg.nx) (c : Fin 4) :
    cornerNode cfg ei ej c < cfg.nx * cfg.ny := by
  fin_cases c
  · show ei * cfg.ny + ej < cfg.nx * cfg.ny
    exact flat_lt (by omega) (by omega)
  · show (ei + 1) * cfg.ny + ej < cfg.nx * cfg.ny
    exact flat_lt (by omega) (by omega)
  · show (ei + 1) * cfg.ny + ej + 1 < cfg.nx * cfg.ny
    have h := flat_lt (show ei + 1 < cfg.nx by omega) (show ej + 1 < cfg.ny by omega)
    omega
  · show ei * cfg.ny + ej + 1 < cfg.nx * cfg.ny
    have h := flat_lt (show ei < cfg.nx by omega) (show ej + 1 < cfg.ny by omega)
    omega

theorem sum_range_ite_shift (E s a : ℕ) (p : ℝ) :
    (∑ ei ∈ Finset.range E, if ei + s = a then p else 0)
      = if s ≤ a ∧ a - s < E then p else 0 := by
  by_cases h : s ≤ a ∧ a - s < E
  · rw [if_pos h]
    rw [Finset.sum_eq_single_of_mem (a - s) (Finset.mem_range.mpr h.2)]
    · rw [if_pos (by omega)]
    · intro b _ hne
      rw [if_neg (by omega)]
  · rw [if_neg h]
    refine Finset.sum_eq_zero fun ei hei => ?_
    have := Finset.mem_range.mp hei
    rw [if_neg (by omega)]

theorem sum_range_ite_flat_inner (EY ny A B t b : ℕ) (hb : b < ny)
    (hEY : EY + t ≤ ny) (p : ℝ) :
    (∑ ej ∈ Finset.range EY, if A * ny + (ej + t) = B * ny + b then p else 0)
      = if A = B ∧ t ≤ b ∧ b - t < EY then p else 0 := by
  by_cases hAB : A = B
  · subst hAB
    have e1 : ∀ ej : ℕ, (A * ny + (ej + t) = A * ny + b) = (ej + t = b) :=
      fun ej => propext (by omega)
    calc (∑ ej ∈ Finset.range EY, if A * ny + (ej + t) = A * ny + b then p else 0)
        = ∑ ej ∈ Finset.range EY, if ej + t = b then p else 0 :=
          Finset.sum_congr rfl fun ej _ => by simp only [e1]
      _ = if t ≤ b ∧ b - t < EY then p else 0 := sum_range_ite_shift EY t b p
      _ = if A = A ∧ t ≤ b ∧ b - t < EY then p else 0 := by simp
  · rw [if_neg (by tauto)]
    refine Finset.sum_eq_zero fun ej hej => ?_
    rw [if_neg]
    intro hEq
    have hjt : ej + t < ny := by
      have := Finset.mem_range.mp hej
      omega
    exact hAB (flat_inj hjt hb hEq).1

theorem sum_range_ite_flat (EX EY ny s t a b : ℕ) (hb : b < ny)
    (hEY : EY + t ≤ ny) (p : ℝ) :
    (∑ ei ∈ Finset.range EX, ∑ ej ∈ Finset.range EY,
        if (ei + s) * ny + (ej + t) = a * ny + b then p else 0)
      = if s ≤ a ∧ a - s < EX ∧ t ≤ b ∧ b - t < EY then p else 0 := by
  have inner : ∀ ei : ℕ,
      (∑ ej ∈ Finset.range EY, if (ei + s) * ny + (ej + t) = a * ny + b then p else 0)
        = if ei + s = a ∧ (t ≤ b ∧ b - t < EY) then p else 0 := fun ei => by
    rw [sum_range_ite_flat_inner EY ny (ei + s) a t b hb hEY p]
  rw [Finset.sum_congr rfl fun ei _ => inner ei]
  by_cases hQ : t ≤ b ∧ b - t < EY
  · have e2 : ∀ ei : ℕ,
        (if ei + s = a ∧ (t ≤ b ∧ b - t < EY) then p else 0)
          = if ei + s = a then p else 0 :=
      fun ei => if_congr (and_iff_left hQ) rfl rfl
    rw [Finset.sum_congr rfl fun ei _ => e2 ei, sum_range_ite_shift EX s a p]
    exact if_congr (by tauto) rfl rfl
  · rw [if_neg (by tauto)]
    exact Finset.sum_eq_zero fun ei _ => if_neg (by tauto)

/-! ## Dirichlet rows of the assembled stiffness matrix -/

theorem KvalEntry_dirichlet (cfg : FEMConfig) (x : ℕ → ℝ) (ei ej : ℕ) (rc cc : Fin 4)
    (hset : (TsetFlat cfg (cornerNode cfg ei ej rc)).isSome) :
    KvalEntry cfg x ei ej rc cc
      = if cc = rc then prescale cfg (cornerNode cfg ei ej rc) else 0 := by
  unfold KvalEntry
  rw [if_pos hset]

theorem Kglob_dirichlet_offdiag (cfg : FEMConfig) (x : ℕ → ℝ) (d c : ℕ)
    (hset : (TsetFlat cfg d).isSome) (hne : c ≠ d) : Kglob cfg x d c = 0 := by
  unfold Kglob
  refine Finset.sum_eq_zero fun ei _ => Finset.sum_eq_zero fun ej _ =>
    Finset.sum_eq_zero fun rc _ => Finset.sum_eq_zero fun cc _ => ?_
  by_cases hcond : cornerNode cfg ei ej rc = d ∧ cornerNode cfg ei ej cc = c
  · rw [if_pos hcond]
    have hset' : (TsetFlat cfg (cornerNode cfg ei ej rc)).isSome := by
      rw [hcond.1]; exact hset
    rw [KvalEntry_dirichlet cfg x ei ej rc cc hset']
    rw [if_neg]
    intro hcc
    subst hcc
    exact hne (by rw [← hcond.2, hcond.1])
  · rw [if_neg hcond]

theorem prescale_flat (cfg : FEMConfig) (a b : ℕ) (hb : b < cfg.ny) :
    prescale cfg (a * cfg.ny + b)
      = if (a = 0 ∨ a = cfg.nx - 1) ∧ (b = 0 ∨ b = cfg.ny - 1) then 1
        else if a = 0 ∨ a = cfg.nx - 1 ∨ b = 0 ∨ b = cfg.ny - 1 then 1 / 2
        else 1 / 4 := by
  have hny : 0 < cfg.ny := lt_of_le_of_lt (Nat.zero_le b) hb
  have hmod : (a * cfg.ny + b) % cfg.ny = b := flat_mod a b hb
  have hdiv : (a * cfg.ny + b - b) / cfg.ny = a := by
    rw [Nat.add_sub_cancel]
    exact Nat.mul_div_cancel a hny
  simp only [prescale, hmod, hdiv]

theorem Kglob_dirichlet_diag (cfg : FEMConfig) (x : ℕ → ℝ) (a b : ℕ)
    (h2x : 2 ≤ cfg.nx) (h2y : 2 ≤ cfg.ny) (ha : a < cfg.nx) (hb : b < cfg.ny)
    (hset : (TsetFlat cfg (a * cfg.ny + b)).isSome) :
    Kglob cfg x (a * cfg.ny + b) (a * cfg.ny + b) = 1 := by
  have step : ∀ ei ej : ℕ, ∀ rc : Fin 4,
      (∑ cc : Fin 4,
        if cornerNode cfg ei ej rc = a * cfg.ny + b ∧
            cornerNode cfg ei ej cc = a * cfg.ny + b then
          KvalEntry cfg x ei ej rc cc
        else 0)
      = if cornerNode cfg ei ej rc = a * cfg.ny + b then
          prescale cfg (a * cfg.ny + b) else 0 := by
    intro ei ej rc
    by_cases h : cornerNode cfg ei ej rc = a * cfg.ny + b
    · rw [if_pos h]
      have hset' : (TsetFlat cfg (cornerNode cfg ei ej rc)).isSome := by
        rw [h]; exact hset
      rw [Finset.sum_eq_single_of_mem rc (Finset.mem_univ rc)]
      · rw [if_pos ⟨h, h⟩, KvalEntry_dirichlet cfg x ei ej rc rc hset', if_pos rfl, h]
      · intro cc _ hne
        by_cases h2 : cornerNode cfg ei ej rc = a * cfg.ny + b ∧
            cornerNode cfg ei ej cc = a * cfg.ny + b
        · rw [if_pos h2, KvalEntry_dirichlet cfg x ei ej rc cc hset', if_neg hne]
        · rw [if_neg h2]
    · rw [if_neg h]
      refine Finset.sum_eq_zero fun cc _ => ?_
      rw [if_neg fun hcon => h hcon.1]
  unfold Kglob
  rw [Finset.sum_congr rfl fun ei _ => Finset.sum_congr rfl fun ej _ =>
    Finset.sum_congr rfl fun rc _ => step ei ej rc]
  have expand : ∀ ei ej : ℕ,
      (∑ rc : Fin 4, if cornerNode cfg ei ej rc = a * cfg.ny + b then
          prescale cfg (a * cfg.ny + b) else 0)
      = (if ei * cfg.ny + ej = a * cfg.ny + b then
            prescale cfg (a * cfg.ny + b) else 0)
        + (if (ei + 1) * cfg.ny + ej = a * cfg.ny + b then
            prescale cfg (a * cfg.ny + b) else 0)
        + (if (ei + 1) * cfg.ny + ej + 1 = a * cfg.ny + b then
            prescale cfg (a * cfg.ny + b) else 0)
        + (if ei * cfg.ny + ej + 1 = a * cfg.ny + b then
            prescale cfg (a * cfg.ny + b) else 0) := by
    intro ei ej
    rw [Fin.sum_univ_four, cornerNode_c0, cornerNode_c1, cornerNode_c2, cornerNode_c3]
  rw [Finset.sum_congr rfl fun ei _ => Finset.sum_congr rfl fun ej _ => expand ei ej]
  simp only [Finset.sum_add_distrib]
  have c0 : (∑ ei ∈ Finset.range (cfg.nx - 1), ∑ ej ∈ Finset.range (cfg.ny - 1),
      if ei * cfg.ny + ej = a * cfg.ny + b then prescale cfg (a * cfg.ny + b) else 0)
      = if 0 ≤ a ∧ a - 0 < cfg.nx - 1 ∧ 0 ≤ b ∧ b - 0 < cfg.ny - 1 then
          prescale cfg (a * cfg.ny + b) else 0 := by
    calc (∑ ei ∈ Finset.range (cfg.nx - 1), ∑ ej ∈ Finset.range (cfg.ny - 1),
        if ei * cfg.ny + ej = a * cfg.ny + b then prescale cfg (a * cfg.ny + b) else 0)
        = ∑ ei ∈ Finset.range (cfg.nx - 1), ∑ ej ∈ Finset.range (cfg.ny - 1),
            if (ei + 0) * cfg.ny + (ej + 0) = a * cfg.ny + b then
              prescale cfg (a * cfg.ny + b) else 0 :=
          Finset.sum_congr rfl fun ei _ => Finset.sum_congr rfl fun ej _ =>
            if_congr (by simp [Nat.add_assoc]) rfl rfl
      _ = _ := sum_range_ite_flat (cfg.nx - 1) (cfg.ny - 1) cfg.ny 0 0 a b hb (by omega) _
  have c1 : (∑ ei ∈ Finset.range (cfg.nx - 1), ∑ ej ∈ Finset.range (cfg.ny - 1),
      if (ei + 1) * cfg.ny + ej = a * cfg.ny + b then prescale cfg (a * cfg.ny + b) else 0)
      = if 1 ≤ a ∧ a - 1 < cfg.nx - 1 ∧ 0 ≤ b ∧ b - 0 < cfg.ny - 1 then
          prescale cfg (a * cfg.ny + b) else 0 := by
    calc (∑ ei ∈ Finset.range (cfg.nx - 1), ∑ ej ∈ Finset.range (cfg.ny - 1),
        if (ei + 1) * cfg.ny + ej = a * cfg.ny + b then prescale cfg (a * cfg.ny + b) else 0)
        = ∑ ei ∈ Finset.range (cfg.nx - 1), ∑ ej ∈ Finset.range (cfg.ny - 1),
            if (ei + 1) * cfg.ny + (ej + 0) = a * cfg.ny + b then
              prescale cfg (a * cfg.ny + b) else 0 :=
          Finset.sum_congr rfl fun ei _ => Finset.sum_congr rfl fun ej _ =>
            if_congr (by simp [Nat.add_assoc]) rfl rfl
      _ = _ := sum_range_ite_flat (cfg.nx - 1) (cfg.ny - 1) cfg.ny 1 0 a b hb (by omega) _
  have c2 : (∑ ei ∈ Finset.range (cfg.nx - 1), ∑ ej ∈ Finset.range (cfg.ny - 1),
      if (ei + 1) * cfg.ny + ej + 1 = a * cfg.ny + b then prescale cfg (a * cfg.ny + b) else 0)
      = if 1 ≤ a ∧ a - 1 < cfg.nx - 1 ∧ 1 ≤ b ∧ b - 1 < cfg.ny - 1 then
          prescale cfg (a * cfg.ny + b) else 0 := by
    calc (∑ ei ∈ Finset.range (cfg.nx - 1), ∑ ej ∈ Finset.range (cfg.ny - 1),
        if (ei + 1) * cfg.ny + ej + 1 = a * cfg.ny + b then prescale cfg (a * cfg.ny + b) else 0)
        = ∑ ei ∈ Finset.range (cfg.nx - 1), ∑ ej ∈ Finset.range (cfg.ny - 1),
            if (ei + 1) * cfg.ny + (ej + 1) = a * cfg.ny + b then
              prescale cfg (a * cfg.ny + b) else 0 :=
          Finset.sum_congr rfl fun ei _ => Finset.sum_congr rfl fun ej _ =>
            if_congr (by simp [Nat.add_assoc]) rfl rfl
      _ = _ := sum_range_ite_flat (cfg.nx - 1) (cfg.ny - 1) cfg.ny 1 1 a b hb (by omega) _
  have c3 : (∑ ei ∈ Finset.range (cfg.nx - 1), ∑ ej ∈ Finset.range (cfg.ny - 1),
      if ei * cfg.ny + ej + 1 = a * cfg.ny + b then prescale cfg (a * cfg.ny + b) else 0)
      = if 0 ≤ a ∧ a - 0 < cfg.nx - 1 ∧ 1 ≤ b ∧ b - 1 < cfg.ny - 1 then
          prescale cfg (a * cfg.ny + b) else 0 := by
    calc (∑ ei ∈ Finset.range (cfg.nx - 1), ∑ ej ∈ Finset.range (cfg.ny - 1),
        if ei * cfg.ny + ej + 1 = a * cfg.ny + b then prescale cfg (a * cfg.ny + b) else 0)
        = ∑ ei ∈ Finset.range (cfg.nx - 1), ∑ ej ∈ Finset.range (cfg.ny - 1),
            if (ei + 0) * cfg.ny + (ej + 1) = a * cfg.ny + b then
              prescale cfg (a * cfg.ny + b) else 0 :=
          Finset.sum_congr rfl fun ei _ => Finset.sum_congr rfl fun ej _ =>
            if_congr (by simp [Nat.add_assoc]) rfl rfl
      _ = _ := sum_range_ite_flat (cfg.nx - 1) (cfg.ny - 1) cfg.ny 0 1 a b hb (by omega) _
  rw [c0, c1, c2, c3, prescale_flat cfg a b hb]
  split_ifs <;> norm_num <;> omega

/-! ## Claim C1: the Dirichlet invariant of K and F -/

/-- C1: for every density vector, after the stiffness matrix and load
vector are built, the row of the global stiffness matrix at any Dirichlet
node `d` equals the unit vector at `d` (exactly 1 on the diagonal after
COO duplicate summation of the pre-scaled 1 / 0.5 / 0.25 contributions
for a mesh corner / edge / interior node), and the load vector entry at
`d` equals the prescribed temperature. -/
theorem dirichlet_row_unit_and_force (cfg : FEMConfig) (x : ℕ → ℝ) (d : ℕ) (V : ℚ)
    (h2x : 2 ≤ cfg.nx) (h2y : 2 ≤ cfg.ny) (hd : d < cfg.nx * cfg.ny)
    (hset : TsetFlat cfg d = some V) :
    (∀ c, c < cfg.nx * cfg.ny → Kglob cfg x d c = if c = d then 1 else 0) ∧
      Fglob cfg d = (V : ℝ) := by
  have hs : (TsetFlat cfg d).isSome := by rw [hset]; rfl
  constructor
  · intro c hc
    by_cases hcd : c = d
    · rw [hcd, if_pos rfl]
      have hny : 0 < cfg.ny := by omega
      have hb : d % cfg.ny < cfg.ny := Nat.mod_lt _ hny
      have ha : d / cfg.ny < cfg.nx := (Nat.div_lt_iff_lt_mul hny).mpr hd
      have hdd : (d / cfg.ny) * cfg.ny + d % cfg.ny = d := by
        rw [Nat.mul_comm]
        exact Nat.div_add_mod d cfg.ny
      have hmain := Kglob_dirichlet_diag cfg x (d / cfg.ny) (d % cfg.ny) h2x h2y ha hb
        (by rw [hdd]; exact hs)
      rw [hdd] at hmain
      exact hmain
    · rw [if_neg hcd]
      exact Kglob_dirichlet_offdiag cfg x d c hs hcd
  · unfold Fglob
    rw [hset]

/-- Witness for C1: the 3×3 configuration with the interior node
(flattened index 4) prescribed to temperature 5, at uniform density 1. -/
theorem dirichlet_row_unit_and_force_witness :
    (2 ≤ cfgInterior.nx ∧ 2 ≤ cfgInterior.ny ∧ 4 < cfgInterior.nx * cfgInterior.ny ∧
        TsetFlat cfgInterior 4 = some 5) ∧
      ((∀ c, c < cfgInterior.nx * cfgInterior.ny →
          Kglob cfgInterior (fun _ => 1) 4 c = if c = 4 then 1 else 0) ∧
        Fglob cfgInterior 4 = ((5 : ℚ) : ℝ)) :=
  ⟨⟨by decide, by decide, by decide, rfl⟩,
    dirichlet_row_unit_and_force cfgInterior (fun _ => 1) 4 5 (by decide) (by decide)
      (by decide) rfl⟩

/-! ## Whole Dirichlet rows, and row sums of the assembled matrix -/

/-- A Dirichlet node's row of the assembled matrix is the unit row. -/
theorem Kglob_dirichlet_row (cfg : FEMConfig) (x : ℕ → ℝ) (d : ℕ)
    (h2x : 2 ≤ cfg.nx) (h2y : 2 ≤ cfg.ny) (hd : d < cfg.nx * cfg.ny)
    (hs : (TsetFlat cfg d).isSome) :
    ∀ c, Kglob cfg x d c = if c = d then 1 else 0 := by
  intro c
  by_cases hcd : c = d
  · rw [hcd, if_pos rfl]
    have hny : 0 < cfg.ny := by omega
    have hb : d % cfg.ny < cfg.ny := Nat.mod_lt _ hny
    have ha : d / cfg.ny < cfg.nx := (Nat.div_lt_iff_lt_mul hny).mpr hd
    have hdd : (d / cfg.ny) * cfg.ny + d % cfg.ny = d := by
      rw [Nat.mul_comm]
      exact Nat.div_add_mod d cfg.ny
    have hmain := Kglob_dirichlet_diag cfg x (d / cfg.ny) (d % cfg.ny) h2x h2y ha hb
      (by rw [hdd]; exact hs)
    rw [hdd] at hmain
    exact hmain
  · rw [if_neg hcd]
    exact Kglob_dirichlet_offdiag cfg x d c hs hcd

/-- For a non-Dirichlet row the fast assembly agrees entrywise with the
naive elementwise accumulation. -/
theorem Kglob_nondirichlet_raw (cfg : FEMConfig) (x : ℕ → ℝ) (r c : ℕ)
    (hr : ¬(TsetFlat cfg r).isSome) :
    Kglob cfg x r c = KglobNaiveRaw cfg x r c := by
  unfold Kglob KglobNaiveRaw
  refine Finset.sum_congr rfl fun ei _ => Finset.sum_congr rfl fun ej _ => ?_
  rw [Finset.mul_sum]
  refine Finset.sum_congr rfl fun rc _ => ?_
  rw [Finset.mul_sum]
  refine Finset.sum_congr rfl fun cc _ => ?_
  by_cases hcond : cornerNode cfg ei ej rc = r ∧ cornerNode cfg ei ej cc = c
  · rw [if_pos hcond, if_pos hcond]
    unfold KvalEntry
    rw [hcond.1, if_neg hr]
  · rw [if_neg hcond, if_neg hcond, mul_zero]

/-- The sum of a non-Dirichlet row of the assembled matrix over all
`nx * ny` columns vanishes: every local stiffness row sums to zero. -/
theorem Kglob_row_sum_zero (cfg : FEMConfig) (x : ℕ → ℝ) (r : ℕ)
    (h2x : 2 ≤ cfg.nx) (hr : ¬(TsetFlat cfg r).isSome) :
    ∑ c ∈ Finset.range (cfg.nx * cfg.ny), Kglob cfg x r c = 0 := by
  unfold Kglob
  rw [Finset.sum_comm]
  refine Finset.sum_eq_zero fun ei hei => ?_
  rw [Finset.sum_comm]
  refine Finset.sum_eq_zero fun ej hej => ?_
  have hei' := Finset.mem_range.mp hei
  have hej' := Finset.mem_range.mp hej
  -- collapse the column sum for each COO triple
  have hcol : ∀ rc cc : Fin 4,
      (∑ c ∈ Finset.range (cfg.nx * cfg.ny),
        if cornerNode cfg ei ej rc = r ∧ cornerNode cfg ei ej cc = c then
          KvalEntry cfg x ei ej rc cc
        else 0)
      = if cornerNode cfg ei ej rc = r then KvalEntry cfg x ei ej rc cc else 0 := by
    intro rc cc
    by_cases hA : cornerNode cfg ei ej rc = r
    · rw [if_pos hA]
      calc (∑ c ∈ Finset.range (cfg.nx * cfg.ny),
            if cornerNode cfg ei ej rc = r ∧ cornerNode cfg ei ej cc = c then
              KvalEntry cfg x ei ej rc cc
            else 0)
          = ∑ c ∈ Finset.range (cfg.nx * cfg.ny),
              if cornerNode cfg ei ej cc = c then KvalEntry cfg x ei ej rc cc else 0 :=
            Finset.sum_congr rfl fun c _ => if_congr (and_iff_right hA) rfl rfl
        _ = if cornerNode cfg ei ej cc ∈ Finset.range (cfg.nx * cfg.ny) then
              KvalEntry cfg x ei ej rc cc else 0 :=
            Finset.sum_ite_eq (Finset.range (cfg.nx * cfg.ny)) (cornerNode cfg ei ej cc)
              (fun _ => KvalEntry cfg x ei ej rc cc)
        _ = KvalEntry cfg x ei ej rc cc := by
            rw [if_pos (Finset.mem_range.mpr (cornerNode_lt cfg ei ej hei' hej' h2x cc))]
    · rw [if_neg hA]
      exact Finset.sum_eq_zero fun c _ => if_neg fun hcon => hA hcon.1
  rw [Finset.sum_comm]
  rw [Finset.sum_congr rfl fun rc _ => Finset.sum_comm]
  rw [Finset.sum_congr rfl fun rc _ => Finset.sum_congr rfl fun cc _ => hcol rc cc]
  refine Finset.sum_eq_zero fun rc _ => ?_
  by_cases hA : cornerNode cfg ei ej rc = r
  · have hval : ∀ cc : Fin 4, KvalEntry cfg x ei ej rc cc
        = x (ei * (cfg.ny - 1) + ej) * localStiffness cfg 0 0 rc cc := fun cc => by
      unfold KvalEntry
      rw [hA, if_neg hr]
    rw [Finset.sum_congr rfl fun cc _ => if_pos hA]
    rw [Finset.sum_congr rfl fun cc _ => hval cc]
    rw [← Finset.mul_sum, localStiffness_row_sum, mul_zero]
  · exact Finset.sum_eq_zero fun cc _ => if_neg hA

/-- The sum of a Dirichlet row over all `nx * ny` columns is exactly 1. -/
theorem Kglob_dirichlet_row_sum (cfg : FEMConfig) (x : ℕ → ℝ) (d : ℕ)
    (h2x : 2 ≤ cfg.nx) (h2y : 2 ≤ cfg.ny) (hd : d < cfg.nx * cfg.ny)
    (hs : (TsetFlat cfg d).isSome) :
    ∑ c ∈ Finset.range (cfg.nx * cfg.ny), Kglob cfg x d c = 1 := by
  rw [Finset.sum_congr rfl fun c _ => Kglob_dirichlet_row cfg x d h2x h2y hd hs c]
  rw [Finset.sum_ite_eq' (Finset.range (cfg.nx * cfg.ny)) d fun _ => (1 : ℝ)]
  rw [if_pos (Finset.mem_range.mpr hd)]

/-- With zero heat generation everywhere, the load vector vanishes away
from the Dirichlet nodes. -/
theorem Fglob_zero_heat (cfg : FEMConfig) (r : ℕ) (hq : ∀ i j, cfg.q i j = 0)
    (hnone : TsetFlat cfg r = none) : Fglob cfg r = 0 := by
  unfold Fglob
  rw [hnone]
  refine Finset.sum_eq_zero fun ei _ => Finset.sum_eq_zero fun ej _ => ?_
  rw [if_neg]
  rw [hq ei ej]
  exact fun h => h rfl

/-! ## Claim C3: fast value-substitution assembly refines the naive one -/

/-- C3: for every density vector (same mesh dimensions and conductivity),
the fast value-substitution assembly produces exactly the same global
stiffness matrix as the naive reference assembly that accumulates
`density[e] * K_loc` over all elements and then overwrites each
Dirichlet row with the unit row. -/
theorem fast_assembly_eq_naive (cfg : FEMConfig) (x : ℕ → ℝ)
    (h2x : 2 ≤ cfg.nx) (h2y : 2 ≤ cfg.ny) :
    ∀ r < cfg.nx * cfg.ny, ∀ c < cfg.nx * cfg.ny,
      Kglob cfg x r c = KglobNaive cfg x r c := by
  intro r hr c _
  unfold KglobNaive
  by_cases hdir : (TsetFlat cfg r).isSome
  · rw [if_pos hdir]
    exact Kglob_dirichlet_row cfg x r h2x h2y hr hdir c
  · rw [if_neg hdir]
    exact Kglob_nondirichlet_raw cfg x r c hdir

/-- Witness for C3: the 3×3 interior-Dirichlet configuration at a
non-uniform density. -/
theorem fast_assembly_eq_naive_witness :
    (2 ≤ cfgInterior.nx ∧ 2 ≤ cfgInterior.ny) ∧
      (∀ r < cfgInterior.nx * cfgInterior.ny, ∀ c < cfgInterior.nx * cfgInterior.ny,
        Kglob cfgInterior (fun e => (e : ℝ) + 1) r c
          = KglobNaive cfgInterior (fun e => (e : ℝ) + 1) r c) :=
  ⟨⟨by decide, by decide⟩,
    fast_assembly_eq_naive cfgInterior (fun e => (e : ℝ) + 1) (by decide) (by decide)⟩

/-! ## Claim C4: a single prescribed temperature with no heat gives a
uniform temperature field -/

/-- C4: on a mesh whose only Dirichlet node `d` is prescribed to `V`,
with zero heat generation in every element and any density vector, the
constant field `V` solves the assembled system `K T = F`; and since the
linear solve returns the solution of that system (unique whenever `K` is
injective, which `spsolve` requires to succeed), every solution produced
by `solve_nonlinear` has every node's temperature equal to `V`. -/
theorem single_dirichlet_uniform_temp (cfg : FEMConfig) (x : ℕ → ℝ) (d : ℕ) (V : ℚ)
    (h2x : 2 ≤ cfg.nx) (h2y : 2 ≤ cfg.ny) (hd : d < cfg.nx * cfg.ny)
    (hset : TsetFlat cfg d = some V)
    (huniq : ∀ n < cfg.nx * cfg.ny, n ≠ d → TsetFlat cfg n = none)
    (hq : ∀ i j, cfg.q i j = 0) :
    (∀ r < cfg.nx * cfg.ny,
        matVecN (cfg.nx * cfg.ny) (Kglob cfg x) (fun _ => (V : ℝ)) r = Fglob cfg r) ∧
    (∀ T : ℕ → ℝ,
      (∀ u v : ℕ → ℝ,
        (∀ r < cfg.nx * cfg.ny,
          matVecN (cfg.nx * cfg.ny) (Kglob cfg x) u r
            = matVecN (cfg.nx * cfg.ny) (Kglob cfg x) v r) →
        ∀ i < cfg.nx * cfg.ny, u i = v i) →
      (∀ r < cfg.nx * cfg.ny,
        matVecN (cfg.nx * cfg.ny) (Kglob cfg x) T r = Fglob cfg r) →
      ∀ nd < cfg.nx * cfg.ny, T nd = V) := by
  have hs : (TsetFlat cfg d).isSome := by rw [hset]; rfl
  have main : ∀ r < cfg.nx * cfg.ny,
      matVecN (cfg.nx * cfg.ny) (Kglob cfg x) (fun _ => (V : ℝ)) r = Fglob cfg r := by
    intro r hr
    unfold matVecN
    rw [← Finset.sum_mul]
    by_cases hrd : r = d
    · subst hrd
      rw [Kglob_dirichlet_row_sum cfg x r h2x h2y hr hs, one_mul]
      unfold Fglob
      rw [hset]
    · rw [Kglob_row_sum_zero cfg x r h2x (by rw [huniq r hr hrd]; exact Bool.false_ne_true),
        zero_mul]
      rw [Fglob_zero_heat cfg r hq (huniq r hr hrd)]
  refine ⟨main, fun T hinj hTF nd hnd => ?_⟩
  exact hinj T (fun _ => (V : ℝ)) (fun r hr => by rw [hTF r hr, main r hr]) nd hnd

/-- Witness for C4: the single-element configuration `cfgSingle`
(lower-left node prescribed to 10, zero heat) at uniform density 1. -/
theorem single_dirichlet_uniform_temp_witness :
    (2 ≤ cfgSingle.nx ∧ 2 ≤ cfgSingle.ny ∧ 0 < cfgSingle.nx * cfgSingle.ny ∧
      TsetFlat cfgSingle 0 = some 10 ∧
      (∀ n < cfgSingle.nx * cfgSingle.ny, n ≠ 0 → TsetFlat cfgSingle n = none) ∧
      (∀ i j, cfgSingle.q i j = 0)) ∧
    ((∀ r < cfgSingle.nx * cfgSingle.ny,
        matVecN (cfgSingle.nx * cfgSingle.ny) (Kglob cfgSingle fun _ => 1)
          (fun _ => ((10 : ℚ) : ℝ)) r = Fglob cfgSingle r) ∧
      (∀ T : ℕ → ℝ,
        (∀ u v : ℕ → ℝ,
          (∀ r < cfgSingle.nx * cfgSingle.ny,
            matVecN (cfgSingle.nx * cfgSingle.ny) (Kglob cfgSingle fun _ => 1) u r
              = matVecN (cfgSingle.nx * cfgSingle.ny) (Kglob cfgSingle fun _ => 1) v r) →
          ∀ i < cfgSingle.nx * cfgSingle.ny, u i = v i) →
        (∀ r < cfgSingle.nx * cfgSingle.ny,
          matVecN (cfgSingle.nx * cfgSingle.ny) (Kglob cfgSingle fun _ => 1) T r
            = Fglob cfgSingle r) →
        ∀ nd < cfgSingle.nx * cfgSingle.ny, T nd = 10)) :=
  ⟨⟨by decide, by decide, by decide, rfl, by decide, fun _ _ => rfl⟩,
    single_dirichlet_uniform_temp cfgSingle (fun _ => 1) 0 10 (by decide) (by decide)
      (by decide) rfl (by decide) (fun _ _ => rfl)⟩

/-! ## Claim C8: the linear density filter fixes uniform fields -/

/-- C8: for every spatially uniform density field (all entries equal to
`c`), the linear density filter returns the same uniform field: every
kept weight is strictly positive, the element's own weight 1 is always
kept, and per-row normalisation makes the weights sum to 1. -/
theorem filter_fixes_uniform (f : FilterConfig) (c : ℚ) (ix iy : ℕ)
    (h2x : 2 ≤ f.nx) (h2y : 2 ≤ f.ny) (hr : 0 < f.r)
    (hx : f.xlo < f.xhi) (hy : f.ylo < f.yhi)
    (hix : ix < f.nx - 1) (hiy : iy < f.ny - 1) :
    densityFiltered f (fun _ => c) ix iy = c := by
  have hnx : (0 : ℚ) < (f.nx : ℚ) - 1 := by
    have : (2 : ℚ) ≤ (f.nx : ℚ) := by exact_mod_cast h2x
    linarith
  have hny : (0 : ℚ) < (f.ny : ℚ) - 1 := by
    have : (2 : ℚ) ≤ (f.ny : ℚ) := by exact_mod_cast h2y
    linarith
  have hxsp : 0 < f.xSpacing := div_pos (by linarith) hnx
  have hysp : 0 < f.ySpacing := div_pos (by linarith) hny
  have hrx : 0 < f.rIdxX := Int.ceil_pos.mpr (div_pos hr hxsp)
  have hry : 0 < f.rIdxY := Int.ceil_pos.mpr (div_pos hr hysp)
  have hself : ((ix : ℤ), (iy : ℤ)) ∈ f.kept ix iy := by
    rw [FilterConfig.kept, Finset.mem_filter]
    refine ⟨Finset.mem_product.mpr ⟨?_, ?_⟩, ?_⟩
    · rw [FilterConfig.neighborsX, Finset.mem_Icc]
      exact ⟨max_le (by positivity) (by omega), le_min (by omega) (by omega)⟩
    · rw [FilterConfig.neighborsY, Finset.mem_Icc]
      exact ⟨max_le (by positivity) (by omega), le_min (by omega) (by omega)⟩
    · show 0 < f.weight ix iy ((ix : ℤ), (iy : ℤ))
      unfold FilterConfig.weight
      simp [sub_self]
  have hpos : ∀ p ∈ f.kept ix iy, 0 < f.weight ix iy p :=
    fun p hp => (Finset.mem_filter.mp hp).2
  have hS : 0 < ∑ p ∈ f.kept ix iy, f.weight ix iy p :=
    Finset.sum_pos hpos ⟨_, hself⟩
  unfold densityFiltered
  rw [Finset.sum_congr rfl fun p _ =>
    show f.weight ix iy p / (∑ q ∈ f.kept ix iy, f.weight ix iy q) * c
        = f.weight ix iy p * (c / ∑ q ∈ f.kept ix iy, f.weight ix iy q) from by ring]
  rw [← Finset.sum_mul]
  field_simp

/-- Witness for C8: a 3×3-node mesh over the unit square with filter
radius 1 and the uniform field 1/2, at element `(0, 1)`. -/
theorem filter_fixes_uniform_witness :
    (2 ≤ (3 : ℕ) ∧ (0 : ℚ) < 1 ∧ (0 : ℚ) < 1 ∧ (0 : ℕ) < 3 - 1 ∧ (1 : ℕ) < 3 - 1) ∧
      densityFiltered ⟨3, 3, 0, 1, 0, 1, 1⟩ (fun _ => 1 / 2) 0 1 = 1 / 2 :=
  ⟨⟨by norm_num, by norm_num, by norm_num, by norm_num, by norm_num⟩,
    filter_fixes_uniform ⟨3, 3, 0, 1, 0, 1, 1⟩ (1 / 2) 0 1 (by norm_num) (by norm_num)
      (by norm_num) (by norm_num) (by norm_num) (by norm_num) (by norm_num)⟩

/-! ## Concrete element kernel values on the single-element unit mesh -/

theorem meshX_single (i : ℕ) : cfgSingle.meshX i = i := by
  unfold FEMConfig.meshX
  norm_num [cfgSingle]

theorem meshY_single (j : ℕ) : cfgSingle.meshY j = j := by
  unfold FEMConfig.meshY
  norm_num [cfgSingle]

theorem elemJ_single (xi eta : ℝ) (m n : Fin 2) :
    elemJ cfgSingle 0 0 xi eta m n = if m = n then 1 / 2 else 0 := by
  fin_cases m <;> fin_cases n <;>
    simp [elemJ, dN, nodalCoord, meshX_single, meshY_single, Fin.sum_univ_four,
      Matrix.vecHead, Matrix.vecTail] <;>
    push_cast <;> ring

theorem det2_single (xi eta : ℝ) : det2 (elemJ cfgSingle 0 0 xi eta) = 1 / 4 := by
  simp [det2, elemJ_single]
  norm_num

theorem elemB_single (xi eta : ℝ) (m : Fin 2) (p : Fin 4) :
    elemB cfgSingle 0 0 xi eta m p = 2 * dN xi eta m p := by
  fin_cases m <;>
    simp [elemB, solve2, elemJ_single, det2_single] <;> ring

/-- The `(0,0)` entry of the local stiffness matrix of the unit square at
unit conductivity is exactly `2/3` (the `666.667 / 1000` of the
repository's regression tests). -/
theorem Kloc00_single : localStiffness cfgSingle 0 0 0 0 = 2 / 3 := by
  have hterm : ∀ xi eta : ℝ, (cfgSingle.conductivity : ℝ) *
      (∑ m : Fin 2, elemB cfgSingle 0 0 xi eta m 0 * elemB cfgSingle 0 0 xi eta m 0) *
      det2 (elemJ cfgSingle 0 0 xi eta)
      = ((eta - 1) ^ 2 + (xi - 1) ^ 2) / 16 := by
    intro xi eta
    rw [det2_single, Fin.sum_univ_two, elemB_single, elemB_single]
    show ((1 : ℚ) : ℝ) * _ * _ = _
    simp only [dN, Matrix.cons_val_zero, Matrix.cons_val_one, Matrix.head_cons]
    push_cast
    ring
  unfold localStiffness
  rw [Fin.sum_univ_four, hterm, hterm, hterm, hterm]
  have hss : (1 / Real.sqrt 3) ^ 2 = 1 / 3 := by
    rw [div_pow, one_pow, Real.sq_sqrt (by norm_num : (0 : ℝ) ≤ 3)]
  show ((-(1 / Real.sqrt 3) - 1) ^ 2 + (-(1 / Real.sqrt 3) - 1) ^ 2) / 16
      + ((1 / Real.sqrt 3 - 1) ^ 2 + (-(1 / Real.sqrt 3) - 1) ^ 2) / 16
      + ((-(1 / Real.sqrt 3) - 1) ^ 2 + (1 / Real.sqrt 3 - 1) ^ 2) / 16
      + ((1 / Real.sqrt 3 - 1) ^ 2 + (1 / Real.sqrt 3 - 1) ^ 2) / 16 = 2 / 3
  linear_combination (1 / 2 : ℝ) * hss

/-! ## Concrete entries of the assembled single-element matrix -/

theorem Kglob_single_00 : Kglob cfgSingle (fun _ => 1) 0 0 = 1 := by
  have h := Kglob_dirichlet_row cfgSingle (fun _ => 1) 0 (by decide) (by decide)
    (by decide) rfl 0
  simpa using h

theorem Kglob_single_10 : Kglob cfgSingle (fun _ => 1) 1 0
    = localStiffness cfgSingle 0 0 3 0 := by
  show (∑ ei ∈ Finset.range (cfgSingle.nx - 1), ∑ ej ∈ Finset.range (cfgSingle.ny - 1),
    ∑ rc : Fin 4, ∑ cc : Fin 4, _) = _
  norm_num [cfgSingle, Finset.sum_range_succ, Fin.sum_univ_four, KvalEntry,
    cornerNode, TsetFlat, prescale]

theorem Kglob_single_20 : Kglob cfgSingle (fun _ => 1) 2 0
    = localStiffness cfgSingle 0 0 1 0 := by
  show (∑ ei ∈ Finset.range (cfgSingle.nx - 1), ∑ ej ∈ Finset.range (cfgSingle.ny - 1),
    ∑ rc : Fin 4, ∑ cc : Fin 4, _) = _
  norm_num [cfgSingle, Finset.sum_range_succ, Fin.sum_univ_four, KvalEntry,
    cornerNode, TsetFlat, prescale]

theorem Kglob_single_30 : Kglob cfgSingle (fun _ => 1) 3 0
    = localStiffness cfgSingle 0 0 2 0 := by
  show (∑ ei ∈ Finset.range (cfgSingle.nx - 1), ∑ ej ∈ Finset.range (cfgSingle.ny - 1),
    ∑ rc : Fin 4, ∑ cc : Fin 4, _) = _
  norm_num [cfgSingle, Finset.sum_range_succ, Fin.sum_univ_four, KvalEntry,
    cornerNode, TsetFlat, prescale]

/-! ## Claim C2: rev-mode `solve_linear` does not solve the transposed
system

`solve_linear` in rev mode executes
`d_residuals["temp"] = spsolve(self.pRpu, d_outputs["temp"])`: the same
untransposed solve as fwd mode (no `.T`, unlike `apply_linear`'s rev
branch).  On `cfgSingle` (one Dirichlet node, so `K` is not symmetric)
with seed `d_outputs = e₀`, the value the code returns is the solution
of `K x = e₀`, which is the all-ones vector; but the claim requires
`Kᵀ x = e₀`, and `Kᵀ · 1` has first entry `1 - K_loc[0,0] = 1/3 ≠ 1`. -/

/-- C2 (code bug, failing input): at the single-element unit
configuration with node 0 Dirichlet and seed `d_outputs = e₀`: (1) the
all-ones vector is the solution of the untransposed system
`K x = e₀` — i.e. what rev-mode `solve_linear` computes; (2) it does
not satisfy the transposed system `Kᵀ x = e₀` the claim asserts;
(3) whenever `K` is injective (as `spsolve` requires), the untransposed
solution is exactly the all-ones vector. -/
theorem solveLinear_rev_untransposed_bug :
    (∀ r < 4, matVecN 4 (Kglob cfgSingle fun _ => 1) (fun _ => 1) r
        = (if r = 0 then (1 : ℝ) else 0)) ∧
    ¬ (matVecN 4 (fun r c => Kglob cfgSingle (fun _ => 1) c r) (fun _ => 1) 0
        = (1 : ℝ)) ∧
    (∀ y : ℕ → ℝ,
      (∀ u v : ℕ → ℝ,
        (∀ r < 4, matVecN 4 (Kglob cfgSingle fun _ => 1) u r
          = matVecN 4 (Kglob cfgSingle fun _ => 1) v r) →
        ∀ i < 4, u i = v i) →
      (∀ r < 4, matVecN 4 (Kglob cfgSingle fun _ => 1) y r
        = (if r = 0 then (1 : ℝ) else 0)) →
      ∀ i < 4, y i = 1) := by
  have main : ∀ r < 4, matVecN 4 (Kglob cfgSingle fun _ => 1) (fun _ => 1) r
      = (if r = 0 then (1 : ℝ) else 0) := by
    intro r hr
    unfold matVecN
    rw [Finset.sum_congr rfl fun c _ => mul_one (Kglob cfgSingle (fun _ => 1) r c)]
    interval_cases r
    · rw [if_pos rfl]
      exact Kglob_dirichlet_row_sum cfgSingle (fun _ => 1) 0 (by decide) (by decide)
        (by decide) rfl
    · rw [if_neg (by norm_num)]
      exact Kglob_row_sum_zero cfgSingle (fun _ => 1) 1 (by decide) (by decide)
    · rw [if_neg (by norm_num)]
      exact Kglob_row_sum_zero cfgSingle (fun _ => 1) 2 (by decide) (by decide)
    · rw [if_neg (by norm_num)]
      exact Kglob_row_sum_zero cfgSingle (fun _ => 1) 3 (by decide) (by decide)
  refine ⟨main, ?_, fun y hinj hy i hi =>
    hinj y (fun _ => 1) (fun r hr => by rw [hy r hr, main r hr]) i hi⟩
  have hval : matVecN 4 (fun r c => Kglob cfgSingle (fun _ => 1) c r) (fun _ => 1) 0
      = 1 / 3 := by
    simp only [matVecN, Finset.sum_range_succ, Finset.sum_range_zero, mul_one, zero_add]
    rw [Kglob_single_00, Kglob_single_10, Kglob_single_20, Kglob_single_30]
    have hcs := localStiffness_col_sum cfgSingle 0 0 0
    rw [Fin.sum_univ_four, Kloc00_single] at hcs
    linarith
  intro hcon
  rw [hval] at hcon
  norm_num at hcon

/-- Witness for C2's theorem: its first conjunct applied at row 0. -/
theorem solveLinear_rev_untransposed_bug_witness :
    (0 : ℕ) < 4 ∧ matVecN 4 (Kglob cfgSingle fun _ => 1) (fun _ => 1) 0
      = (if (0 : ℕ) = 0 then (1 : ℝ) else 0) :=
  ⟨by norm_num, solveLinear_rev_untransposed_bug.1 0 (by norm_num)⟩

/-! ## Claim C10: density-weighted average temperature -/

/-- C10: for every density array and temperature array, the
density-weighted average-temperature reduction returns, for each element
`e = (ei, ej)`, `avg_temp[e] = density[e] * (sum of the temperatures at
the element's four corner nodes) / 4`, with diagonal Jacobian entries
`∂avg_temp[e]/∂density[e] = (sum of the four corner temperatures) / 4`
and `∂avg_temp[e]/∂temp = density[e] / 4` at each of the four corner
slots. -/
theorem avgTemp_weighted_mean (cfg : FEMConfig) (x T : ℕ → ℝ) (ei ej : ℕ) :
    avgTemp cfg x T ei ej =
      x (ei * (cfg.ny - 1) + ej) *
        (T (cornerNode2 cfg ei ej 0) + T (cornerNode2 cfg ei ej 1) +
          T (cornerNode2 cfg ei ej 2) + T (cornerNode2 cfg ei ej 3)) / 4 ∧
    avgTempPDensity cfg T ei ej =
      (T (cornerNode2 cfg ei ej 0) + T (cornerNode2 cfg ei ej 1) +
        T (cornerNode2 cfg ei ej 2) + T (cornerNode2 cfg ei ej 3)) / 4 ∧
    ∀ c : Fin 4, avgTempPTemp cfg x ei ej c = x (ei * (cfg.ny - 1) + ej) / 4 := by
  refine ⟨?_, ?_, fun c => ?_⟩
  · unfold avgTemp; ring
  · unfold avgTempPDensity; ring
  · unfold avgTempPTemp; ring

/-! ## Claim C9: smoothstep clipping -/

/-- C9: for every input to the smoothstep stage (with a nonempty
transition band `x_min < x_max`), an entry below the band
(`input < x_min`) produces the clipped minimum output `y_min` with
elementwise derivative exactly 0, and an entry above the band
(`input > x_max`) produces the clipped maximum output `y_max` with
elementwise derivative exactly 0. -/
theorem smoothStep_clipped_outside_band (o : SmoothStepOpts) (x : ℚ)
    (hband : o.xmin < o.xmax) :
    (x < o.xmin → smoothStepCompute o x = o.ymin ∧ smoothStepPartial o x = 0) ∧
    (o.xmax < x → smoothStepCompute o x = o.ymax ∧ smoothStepPartial o x = 0) := by
  have hden : 0 < o.xmax - o.xmin := by linarith
  constructor
  · intro hx
    have hxs : (x - o.xmin) / (o.xmax - o.xmin) < 0 :=
      div_neg_of_neg_of_pos (by linarith) hden
    have hxs1 : ¬ (1 < (x - o.xmin) / (o.xmax - o.xmin)) := by
      intro h; linarith
    constructor
    · simp only [smoothStepCompute]
      rw [if_pos hxs, if_neg hxs1]
      ring
    · simp only [smoothStepPartial]
      rw [if_pos hxs, if_neg hxs1]
      ring
  · intro hx
    have hxs1 : 1 < (x - o.xmin) / (o.xmax - o.xmin) :=
      (lt_div_iff hden).mpr (by linarith)
    have hxs : ¬ ((x - o.xmin) / (o.xmax - o.xmin) < 0) := by
      intro h; linarith
    constructor
    · simp only [smoothStepCompute]
      rw [if_pos hxs1]
      ring
    · simp only [smoothStepPartial]
      rw [if_pos hxs1]
      ring

/-- Witness for C9 at the repository defaults `n = 3`,
`[x_min, x_max] = [1/4, 3/4]`, `y_min = 1/1000`, `y_max = 1`, input 0
(below the band) and input 1 (above the band). -/
theorem smoothStep_clipped_outside_band_witness :
    ((1 : ℚ) / 4 < 3 / 4) ∧
      (((0 : ℚ) < 1 / 4 →
          smoothStepCompute ⟨3, 1 / 4, 3 / 4, 1 / 1000, 1⟩ 0 = 1 / 1000 ∧
            smoothStepPartial ⟨3, 1 / 4, 3 / 4, 1 / 1000, 1⟩ 0 = 0) ∧
        (((3 : ℚ) / 4 < 1) →
          smoothStepCompute ⟨3, 1 / 4, 3 / 4, 1 / 1000, 1⟩ 1 = 1 ∧
            smoothStepPartial ⟨3, 1 / 4, 3 / 4, 1 / 1000, 1⟩ 1 = 0)) :=
  ⟨by norm_num,
    ⟨(smoothStep_clipped_outside_band ⟨3, 1 / 4, 3 / 4, 1 / 1000, 1⟩ 0 (by norm_num)).1,
      (smoothStep_clipped_outside_band ⟨3, 1 / 4, 3 / 4, 1 / 1000, 1⟩ 1 (by norm_num)).2⟩⟩

/-! ## Claim C7: memoised stiffness update -/

/-- C7: calling the stiffness update with a density equal by value to the
stored snapshot returns with no state change at all; calling it with any
entry different rebuilds the global stiffness matrix from the new
density and replaces the stored snapshot. -/
theorem updateGlobalStiffness_memoised (cfg : FEMConfig) (s : StiffState) (d : List ℚ) :
    (s.density = d → updateGlobalStiffness cfg s d = s) ∧
    (s.density ≠ d → updateGlobalStiffness cfg s d =
      { density := d, Kmat := Kglob cfg fun e => ((d.getD e 0 : ℚ) : ℝ) }) := by
  constructor
  · intro h
    unfold updateGlobalStiffness
    rw [if_pos h]
  · intro h
    unfold updateGlobalStiffness
    rw [if_neg h]

/-- Witness for C7: an unchanged two-element density list is a no-op, and
a changed one replaces the snapshot and rebuilds. -/
theorem updateGlobalStiffness_memoised_witness :
    (updateGlobalStiffness cfgInterior ⟨[1, 1 / 2], fun _ _ => 0⟩ [1, 1 / 2]
        = ⟨[1, 1 / 2], fun _ _ => 0⟩) ∧
      (updateGlobalStiffness cfgInterior ⟨[1, 1 / 2], fun _ _ => 0⟩ [1, 1 / 4]
        = ⟨[1, 1 / 4], Kglob cfgInterior fun e => ((([1, 1 / 4] : List ℚ).getD e 0 : ℚ) : ℝ)⟩) :=
  ⟨(updateGlobalStiffness_memoised cfgInterior ⟨[1, 1 / 2], fun _ _ => 0⟩ [1, 1 / 2]).1 rfl,
    (updateGlobalStiffness_memoised cfgInterior ⟨[1, 1 / 2], fun _ _ => 0⟩ [1, 1 / 4]).2
      (by simp)⟩

/-! ## Claim C6: Dirichlet rows of the density Jacobian vanish -/

/-- C6: for every temperature vector (and hence for every density vector,
which the `∂R/∂density` product built by `linearize` never reads), the
row of the `∂R/∂density` matrix at a node with a prescribed temperature
is identically zero: `_preprocess_pRpx` removes every coefficient triple
whose row node is Dirichlet. -/
theorem pRpx_dirichlet_row_zero (cfg : FEMConfig) (T : ℕ → ℝ) (r ei ej : ℕ)
    (hr : (TsetFlat cfg r).isSome) : pRpxEntry cfg T r ei ej = 0 := by
  unfold pRpxEntry
  refine Finset.sum_eq_zero fun rc _ => Finset.sum_eq_zero fun cc _ => ?_
  rw [if_neg]
  rintro ⟨heq, hns⟩
  exact hns (heq ▸ hr)

/-- Witness for C6: the interior Dirichlet node (flattened index 4) of
the 3×3 configuration, at uniform temperature 2, for element `(0, 0)`. -/
theorem pRpx_dirichlet_row_zero_witness :
    (TsetFlat cfgInterior 4).isSome ∧ pRpxEntry cfgInterior (fun _ => 2) 4 0 0 = 0 :=
  ⟨rfl, pRpx_dirichlet_row_zero cfgInterior (fun _ => 2) 4 0 0 rfl⟩

/-! ## Claim C5: no construction-time validation -/

/-- C5 counterexample: the configuration `cfgInvalid` has zero Dirichlet
nodes and a non-positive conductivity, and `fcfgInvalid` has filter
radius `≤ 0`; the claim says construction must raise a fatal error
immediately, but `setup` contains no validation and completes normally,
returning the constructed state. -/
theorem setup_accepts_invalid_config :
    FEMSetup cfgInvalid = Except.ok (Kglob cfgInvalid fun _ => 1, Fglob cfgInvalid) ∧
      FilterSetup fcfgInvalid
        = Except.ok fun density ix iy => densityFiltered fcfgInvalid density ix iy :=
  ⟨rfl, rfl⟩

/-- C5 amended: construction never raises, whatever the configuration
(zero Dirichlet nodes, non-positive conductivity, non-positive filter
radius included): `FEM.setup` and `LinearDensityFilter.setup` contain no
validation, and such configuration errors surface only later (a singular
matrix at solve time). -/
theorem setup_never_raises :
    ∀ (cfg : FEMConfig) (f : FilterConfig),
      FEMSetup cfg = Except.ok (Kglob cfg fun _ => 1, Fglob cfg) ∧
        FilterSetup f = Except.ok fun density ix iy => densityFiltered f density ix iy :=
  fun _ _ => ⟨rfl, rfl⟩

end Toasty
